import Mathlib

/-!
Shallow embedding of the wintun-lib-embedded generation pipeline
(`cmd/generate.go`) and proofs about it.

Strings that undergo character-level processing are modelled as
`List Char`; `String` is used where only whole-string operations occur
(command argument vectors, error messages).
-/

/-- Model of Go `unicode.IsSpace` (the Unicode White_Space property),
used by `strings.TrimSpace`. -/
def goIsSpace (c : Char) : Bool :=
  c.toNat = 32 || c.toNat = 9 || c.toNat = 10 || c.toNat = 11 ||
  c.toNat = 12 || c.toNat = 13 || c.toNat = 0x85 || c.toNat = 0xA0 ||
  c.toNat = 0x1680 || (0x2000 ≤ c.toNat && c.toNat ≤ 0x200A) ||
  c.toNat = 0x2028 || c.toNat = 0x2029 || c.toNat = 0x202F ||
  c.toNat = 0x205F || c.toNat = 0x3000

/-- Model of Go `strings.TrimSpace`: drop leading and trailing
whitespace characters. -/
def trimSpace (l : List Char) : List Char :=
  ((l.dropWhile goIsSpace).reverse.dropWhile goIsSpace).reverse

/-- Split a character list at the first occurrence of `sep`:
`some (before, after)` when `sep` occurs, `none` otherwise. -/
def splitFirst (sep : Char) : List Char → Option (List Char × List Char)
  | [] => none
  | c :: cs =>
    if c = sep then some ([], cs)
    else
      match splitFirst sep cs with
      | none => none
      | some (a, b) => some (c :: a, b)

/-- Model of Go `strings.SplitN(s, sep, n)` for a single-character
separator and `n ≥ 1`: at most `n` parts, the last part keeps any
remaining separators. -/
def goSplitN (sep : Char) : Nat → List Char → List (List Char)
  | 0, _ => []
  | 1, s => [s]
  | n + 2, s =>
    match splitFirst sep s with
    | none => [s]
    | some (a, b) => a :: goSplitN sep (n + 1) b

/-- Model of Go `strings.Split(s, sep)` for a single-character
separator: all `sep`-separated components, in order. -/
def splitAll (sep : Char) : List Char → List (List Char)
  | [] => [[]]
  | c :: cs =>
    match splitAll sep cs with
    | [] => [[c]]
    | p :: ps => if c = sep then [] :: p :: ps else (c :: p) :: ps

/-- Model of Go `strings.ReplaceAll(s, old, new)` for single-character
`old` and `new`. -/
def replaceAllChar (a b : Char) (l : List Char) : List Char :=
  l.map (fun c => if c = a then b else c)

/-- Padding step of `normalizeVersion`: `split := strings.SplitN(trimVer, ".", 3)`
followed by the loop `for i := len(split)-1; i < 3; i++`, whose body
appends `"0"` to `split`; the loop runs exactly `4 - len(split)` times
(and `0` times once the length reaches 4). -/
def padded3 (t : List Char) : List (List Char) :=
  let split := goSplitN '.' 3 t
  split ++ List.replicate (4 - split.length) ['0']

/-- Model of `normalizeVersion` (`cmd/generate.go:86-101`): trim the raw
version; fail on empty; split on `.` into at most three parts, pad with
`"0"`, and join the first three parts with `.`, replacing any dots left
inside the third part by underscores. The error value carries the
message text of the `fmt.Errorf` call (the trimmed version between two
quote characters, codepoint 39). -/
def normalizeVersion (ver : List Char) : Except (List Char) (List Char) :=
  let trimVer := trimSpace ver
  if trimVer = [] then
    .error ("invalid version ".data ++ Char.ofNat 39 :: trimVer ++ [Char.ofNat 39])
  else
    let split := padded3 trimVer
    .ok ((split.getD 0 []) ++ '.' :: ((split.getD 1 []) ++ '.' ::
      replaceAllChar '.' '_' (split.getD 2 [])))

/-- Model of `downloadUrl` (`cmd/generate.go:103-106`): the returned URL
is `fmt.Sprintf("https://www.wintun.net/builds/wintun-%s.zip", version)`;
the log call has no effect on the return value. -/
def downloadUrl (version : String) : String :=
  "https://www.wintun.net/builds/wintun-" ++ version ++ ".zip"

/-- The decimal digit character for `d < 10` (codepoint `48 + d`),
as produced by Go `fmt.Sprintf("%d", _)`. -/
def decChar (d : Nat) : Char := Char.ofNat (48 + d)

/-- Fuel-bounded unsigned decimal rendering; `fuel > n` guarantees the
fuel is never exhausted. Structural recursion keeps the definition
kernel-reducible. -/
def decReprAux : Nat → Nat → List Char
  | 0, _ => []
  | fuel + 1, n =>
    if n < 10 then [decChar n]
    else decReprAux fuel (n / 10) ++ [decChar (n % 10)]

/-- Unsigned decimal rendering of a natural number, most significant
digit first — the output of Go `fmt.Sprintf("%d", n)` for `n ≥ 0`. -/
def decRepr (n : Nat) : List Char := decReprAux (n + 1) n

/-- Model of `byteize` (`cmd/generate.go:48-54`): a `strings.Builder`
fold appending `fmt.Sprintf("%d,", int(v))` for each byte `v`.
Bytes are modelled as `Nat` values (the Go values lie in `0..255`). -/
def byteize (data : List Nat) : List Char :=
  data.foldl (fun sb v => sb ++ (decRepr v ++ [','])) []

/-- Holds exactly on ASCII decimal digit characters. -/
def isDigitChar (c : Char) : Bool := 48 ≤ c.toNat && c.toNat ≤ 57

/-- Numeric value of an ASCII digit character. -/
def digitVal (c : Char) : Nat := c.toNat - 48

/-- Parse a non-empty all-digit character list as an unsigned decimal
number; `none` otherwise. -/
def parseDec (s : List Char) : Option Nat :=
  if s = [] then none
  else if s.all isDigitChar then
    some (s.foldl (fun a c => a * 10 + digitVal c) 0)
  else none

/-- Parse every segment of a list of character lists as a decimal
number, failing if any segment fails. -/
def parseAll : List (List Char) → Option (List Nat)
  | [] => some []
  | s :: rest =>
    match parseDec s, parseAll rest with
    | some n, some l => some (n :: l)
    | _, _ => none

/-- Decoder for the output of `byteize`, following the round-trip
property of the spec: split the emitted text on commas (the decimal
value of each byte is followed by a comma, so the final segment is empty
and dropped) and parse each remaining segment as an unsigned decimal
byte value. -/
def decodeBytes (s : List Char) : Option (List Nat) :=
  parseAll (splitAll ',' s).dropLast

/-- Model of the escaping `html/template` applies to a pipeline
interpolated in plain HTML text context (the `htmlReplacementTable` of
`html/template`): `<`, `>`, `&`, the two quote characters and NUL are
replaced, every other character is passed through unchanged. -/
def htmlEscapeChar (c : Char) : List Char :=
  if c.toNat = 34 then "&#34;".data
  else if c.toNat = 39 then "&#39;".data
  else if c.toNat = 38 then "&amp;".data
  else if c.toNat = 60 then "&lt;".data
  else if c.toNat = 62 then "&gt;".data
  else if c.toNat = 0 then "�".data
  else [c]

/-- HTML text-context escaping of a whole string, character by character. -/
def htmlEscape (s : List Char) : List Char := s.flatMap htmlEscapeChar

/-- The literal template text of `tpl` (`cmd/generate.go:37-46`) before
the `\x7b\x7b byteize . \x7d\x7d` action. -/
def tplPrefix : List Char :=
  ("// Code generated by wintun-lib-embedded; DO NOT EDIT.\npackage wintunlib\n\nvar binary = []byte\x7b ").data

/-- The literal template text of `tpl` (`cmd/generate.go:37-46`) after
the `\x7b\x7b byteize . \x7d\x7d` action. -/
def tplSuffix : List Char :=
  (" \x7d\n\n// GetBinary returns the Wintun library according to GOARCH (compile time).\n// The library can be written to file as a dll file and thereafter it can be loaded.\nfunc GetBinary() []byte \x7b return binary \x7d\n\n").data

/-- Model of `tpl.Execute(&out, binary)`: the fixed template text with the
single action `\x7b\x7b byteize . \x7d\x7d` replaced by the HTML-escaped
result of `byteize` (the template is declared with `html/template`, whose
contextual auto-escaper escapes the output of the action for HTML text context). -/
def executeTemplate (bin : List Nat) : List Char :=
  tplPrefix ++ htmlEscape (byteize bin) ++ tplSuffix

/-- Plain textual substitution of the output of `byteize` into the template
text, with no escaping — the reference behaviour a `text/template`
rendering would produce, stated for comparison with `executeTemplate`. -/
def plainSubstitution (bin : List Nat) : List Char :=
  tplPrefix ++ byteize bin ++ tplSuffix

/-- Model of the render-and-format step of `generateFileForArch`
(`cmd/generate.go:139-146`): template execution followed by
`format.Source`. The formatter (`go/format`, external to this
repository) is taken as an explicit function argument; the architecture
key is an argument of the step but influences only the output filename,
not the rendered text. -/
def renderAndFormat (fmtSrc : List Char → List Char) (_arch : String)
    (bin : List Nat) : List Char :=
  fmtSrc (executeTemplate bin)

/-- One file entry of a zip archive, as seen through `archive/zip`:
its name, whether `(*zip.File).Open` fails on it, whether reading the
opened stream fails, and the bytes `ioutil.ReadAll` yields on success. -/
structure ZipEntry where
  name : String
  openErr : Bool
  readErr : Bool
  data : List Nat
deriving DecidableEq

/-- A zip archive as `unzipBinaries` consumes it: whether
`zip.NewReader` succeeds on the input bytes, and on success the entries
of `r.File` in archive order. -/
structure ZipArchive where
  valid : Bool
  files : List ZipEntry
deriving DecidableEq

/-- Outcome of a Go function that can return a value, return an error,
or crash with a runtime panic. -/
inductive GoResult (α : Type) where
  | ok : α → GoResult α
  | err : String → GoResult α
  | crash : GoResult α
deriving DecidableEq

/-- The `fmap[f.Name] = f` index built by `unzipBinaries`
(`cmd/generate.go:113-116`): for a repeated name the later entry wins,
as with Go map assignment; `none` when the name is absent. -/
def lookupEntry (files : List ZipEntry) (nm : String) : Option ZipEntry :=
  files.foldl (fun acc f => if f.name = nm then some f else acc) none

/-- Configuration table `goarchToWintunArch` (`cmd/generate.go:27-32`): the configured
(GOARCH key, upstream Wintun name) pairs. The Go value is a map with
unspecified iteration order; it is embedded as a list in declaration
order, which fixes one iteration order for the extraction loop. -/
def goarchToWintunArch : List (String × String) :=
  [("amd64", "amd64"), ("arm", "arm"), ("arm64", "arm64"), ("386", "x86")]

/-- The archive path `fmt.Sprintf("wintun/bin/%s/wintun.dll", v)` at
which `unzipBinaries` looks for the binary of upstream arch name `v`. -/
def wintunPath (v : String) : String := "wintun/bin/" ++ v ++ "/wintun.dll"

/-- The per-architecture loop of `unzipBinaries`
(`cmd/generate.go:118-131`), accumulating `bmap` in iteration order.
When the path is absent from the index, `fmap[...]` yields a nil
`*zip.File` and `f.Open()` dereferences it: a runtime panic, modelled
as `GoResult.crash`. An open or read failure returns the corresponding
`fmt.Errorf` message naming the GOARCH key. -/
def unzipLoop (files : List ZipEntry) :
    List (String × String) → List (String × List Nat) →
    GoResult (List (String × List Nat))
  | [], bmap => .ok bmap
  | (k, v) :: rest, bmap =>
    match lookupEntry files (wintunPath v) with
    | none => .crash
    | some e =>
      if e.openErr then .err ("unable to open binary for GOARCH " ++ k)
      else if e.readErr then .err ("unable to read binary for GOARCH " ++ k)
      else unzipLoop files rest (bmap ++ [(k, e.data)])

/-- Model of `unzipBinaries` (`cmd/generate.go:108-133`): fail if the
zip reader cannot be created, otherwise index the entries by name and
extract one blob per configured architecture. -/
def unzipBinaries (a : ZipArchive) : GoResult (List (String × List Nat)) :=
  if a.valid then unzipLoop a.files goarchToWintunArch []
  else .err "unable to create zip reader"

/-- The content `unzipBinaries` would read for upstream arch name `v`:
the bytes of the (last) entry at `wintunPath v`, or `[]` when absent. -/
def entryData (files : List ZipEntry) (v : String) : List Nat :=
  match lookupEntry files (wintunPath v) with
  | some e => e.data
  | none => []

/-- Holds when the entry at `wintunPath v` exists and both opening and
reading it succeed. -/
def entryOk (files : List ZipEntry) (v : String) : Bool :=
  match lookupEntry files (wintunPath v) with
  | some e => !e.openErr && !e.readErr
  | none => false

/-- The command vector of `git status --porcelain=v1`
(`cmd/generate.go:155`). -/
def gitStatusCmd : List String := ["git", "status", "--porcelain=v1"]

/-- Model of `hasUncommittedChanges` (`cmd/generate.go:154-161`).
`exec` gives the outcome (`runWithOut` result) of running a command:
combined output on success, an error message on failure. -/
def hasUncommittedChanges (exec : List String → Except String String) :
    Except String Bool :=
  match exec gitStatusCmd with
  | .error e => .error ("unable to check git status: " ++ e)
  | .ok out => .ok (decide ((trimSpace out.data).length > 0))

/-- The five git command vectors `pushToGit` issues for a normalized
version `ver` (`cmd/generate.go:163-186`), in program order. -/
def gitSeq (ver : String) : List (List String) :=
  [["git", "add", "."],
   ["git", "commit", "-m", "updated to Wintun version " ++ ver],
   ["git", "tag", "-f", "-a", "v" ++ ver, "-m", "Wintun version " ++ ver],
   ["git", "push", "--follow-tags"],
   ["git", "push", "origin", "v" ++ ver]]

/-- The `fmt.Errorf` wrapper prefix `pushToGit` uses for a failure of
its `k`-th git command. -/
def gitWrap : Nat → String
  | 0 => "unable to git add: "
  | 1 => "unable to create commit: "
  | 2 => "unable to create git tag: "
  | 3 => "unable to push: "
  | _ => "unable to push tag: "

/-- Model of `pushToGit` (`cmd/generate.go:163-186`). `exec` gives each
the outcome of each command. The result records the commands actually attempted,
in order, together with `none` on success or the wrapped error message
of the first failing command. -/
def pushToGit (exec : List String → Except String Unit) (ver : String) :
    List (List String) × Option String :=
  let addCmd := ["git", "add", "."]
  match exec addCmd with
  | .error e => ([addCmd], some ("unable to git add: " ++ e))
  | .ok _ =>
  let commitCmd := ["git", "commit", "-m", "updated to Wintun version " ++ ver]
  match exec commitCmd with
  | .error e => ([addCmd, commitCmd], some ("unable to create commit: " ++ e))
  | .ok _ =>
  let tag := "v" ++ ver
  let tagCmd := ["git", "tag", "-f", "-a", tag, "-m", "Wintun version " ++ ver]
  match exec tagCmd with
  | .error e => ([addCmd, commitCmd, tagCmd], some ("unable to create git tag: " ++ e))
  | .ok _ =>
  let pushCmd := ["git", "push", "--follow-tags"]
  match exec pushCmd with
  | .error e =>
    ([addCmd, commitCmd, tagCmd, pushCmd], some ("unable to push: " ++ e))
  | .ok _ =>
  let tagPushCmd := ["git", "push", "origin", tag]
  match exec tagPushCmd with
  | .error e =>
    ([addCmd, commitCmd, tagCmd, pushCmd, tagPushCmd],
     some ("unable to push tag: " ++ e))
  | .ok _ => ([addCmd, commitCmd, tagCmd, pushCmd, tagPushCmd], none)

theorem splitFirst_none {sep : Char} {s : List Char}
    (h : splitFirst sep s = none) : sep ∉ s := by
  induction s with
  | nil => simp
  | cons c cs ih =>
    by_cases hc : c = sep
    · simp [splitFirst, hc] at h
    · cases hsc : splitFirst sep cs with
      | none =>
        have hcs := ih hsc
        intro hmem
        rcases List.mem_cons.mp hmem with rfl | hm
        · exact hc rfl
        · exact hcs hm
      | some p =>
        obtain ⟨a, b⟩ := p
        simp [splitFirst, if_neg hc, hsc] at h

theorem splitFirst_some {sep : Char} {s a b : List Char}
    (h : splitFirst sep s = some (a, b)) : s = a ++ sep :: b ∧ sep ∉ a := by
  induction s generalizing a b with
  | nil => simp [splitFirst] at h
  | cons c cs ih =>
    by_cases hc : c = sep
    · simp only [splitFirst, if_pos hc, Option.some.injEq, Prod.mk.injEq] at h
      obtain ⟨rfl, rfl⟩ := h
      simp [hc]
    · cases hsc : splitFirst sep cs with
      | none => simp [splitFirst, if_neg hc, hsc] at h
      | some p =>
        obtain ⟨a', b'⟩ := p
        simp only [splitFirst, if_neg hc, hsc, Option.some.injEq,
          Prod.mk.injEq] at h
        obtain ⟨rfl, rfl⟩ := h
        obtain ⟨hcs, ha'⟩ := ih hsc
        refine ⟨by rw [hcs]; rfl, ?_⟩
        intro hm
        rcases List.mem_cons.mp hm with rfl | hm'
        · exact hc rfl
        · exact ha' hm'

theorem splitAll_ne_nil (sep : Char) (s : List Char) : splitAll sep s ≠ [] := by
  cases s with
  | nil => simp [splitAll]
  | cons c cs =>
    simp only [splitAll]
    cases splitAll sep cs with
    | nil => simp
    | cons p ps => by_cases hc : c = sep <;> simp [hc]

theorem splitAll_not_mem {sep : Char} {s : List Char} (h : sep ∉ s) :
    splitAll sep s = [s] := by
  induction s with
  | nil => rfl
  | cons c cs ih =>
    have hc : ¬c = sep := fun e => h (by rw [e]; exact List.mem_cons_self _ _)
    have hcs : sep ∉ cs := fun m => h (List.mem_cons_of_mem c m)
    simp only [splitAll, ih hcs]
    rw [if_neg hc]

theorem splitAll_append {sep : Char} {x : List Char} (y : List Char)
    (h : sep ∉ x) : splitAll sep (x ++ sep :: y) = x :: splitAll sep y := by
  induction x with
  | nil =>
    simp only [List.nil_append, splitAll]
    cases hy : splitAll sep y with
    | nil => exact absurd hy (splitAll_ne_nil sep y)
    | cons p ps => simp
  | cons c cs ih =>
    have hc : ¬c = sep := fun e => h (by rw [e]; exact List.mem_cons_self _ _)
    have hcs : sep ∉ cs := fun m => h (List.mem_cons_of_mem c m)
    simp [splitAll, List.append_eq, ih hcs, hc]

theorem splitAll_three {sep : Char} {e0 e1 e2 : List Char}
    (h0 : sep ∉ e0) (h1 : sep ∉ e1) (h2 : sep ∉ e2) :
    splitAll sep (e0 ++ sep :: (e1 ++ sep :: e2)) = [e0, e1, e2] := by
  rw [splitAll_append _ h0, splitAll_append _ h1, splitAll_not_mem h2]

theorem not_mem_replaceAll {a b : Char} (hab : ¬b = a) (l : List Char) :
    a ∉ replaceAllChar a b l := by
  intro hm
  rcases List.mem_map.mp hm with ⟨c, _, hc⟩
  by_cases h : c = a
  · rw [if_pos h] at hc; exact hab hc
  · rw [if_neg h] at hc; exact h hc

theorem padded3_shape (t : List Char) :
    ∃ e0 e1 e2 e3, padded3 t = [e0, e1, e2, e3] ∧ '.' ∉ e0 ∧ '.' ∉ e1 := by
  unfold padded3
  cases h1 : splitFirst '.' t with
  | none =>
    refine ⟨t, ['0'], ['0'], ['0'], ?_, splitFirst_none h1, by decide⟩
    simp [goSplitN, h1, List.replicate]
  | some p =>
    obtain ⟨a, b⟩ := p
    obtain ⟨rfl, ha⟩ := splitFirst_some h1
    cases h2 : splitFirst '.' b with
    | none =>
      refine ⟨a, b, ['0'], ['0'], ?_, ha, splitFirst_none h2⟩
      simp [goSplitN, h1, h2, List.replicate]
    | some q =>
      obtain ⟨a2, b2⟩ := q
      obtain ⟨hb, ha2⟩ := splitFirst_some h2
      refine ⟨a, a2, b2, ['0'], ?_, ha, ha2⟩
      simp [goSplitN, h1, h2, List.replicate]

/-- C2: `normalizeVersion` satisfies the four reference cases:
`"1.2" ↦ "1.2.0"`, `"1.2.3.4" ↦ "1.2.3_4"`, the empty string is
rejected with an error, and `"  1.2.3  " ↦ "1.2.3"`. -/
theorem normalizeVersion_examples :
    normalizeVersion "1.2".data = .ok "1.2.0".data ∧
    normalizeVersion "1.2.3.4".data = .ok "1.2.3_4".data ∧
    (∃ e, normalizeVersion "".data = .error e) ∧
    normalizeVersion "  1.2.3  ".data = .ok "1.2.3".data :=
  ⟨rfl, rfl, ⟨_, rfl⟩, rfl⟩

theorem getD4_zero (e0 e1 e2 e3 : List Char) :
    [e0, e1, e2, e3].getD 0 [] = e0 := rfl

theorem getD4_one (e0 e1 e2 e3 : List Char) :
    [e0, e1, e2, e3].getD 1 [] = e1 := rfl

theorem getD4_two (e0 e1 e2 e3 : List Char) :
    [e0, e1, e2, e3].getD 2 [] = e2 := rfl

/-- C3: `normalizeVersion` returns an error exactly when the
whitespace-trimmed input is empty, and on success the result consists of
exactly three dot-separated components. -/
theorem normalizeVersion_invariants (ver : List Char) :
    ((∃ e, normalizeVersion ver = .error e) ↔ trimSpace ver = []) ∧
    (∀ out, normalizeVersion ver = .ok out →
      (splitAll '.' out).length = 3) := by
  constructor
  · unfold normalizeVersion
    by_cases h : trimSpace ver = [] <;> simp [h]
  · intro out hout
    by_cases h : trimSpace ver = []
    · simp [normalizeVersion, h] at hout
    · obtain ⟨e0, e1, e2, e3, hp, h0, h1⟩ := padded3_shape (trimSpace ver)
      simp only [normalizeVersion, if_neg h, hp, getD4_zero, getD4_one,
        getD4_two, Except.ok.injEq] at hout
      have h2 : '.' ∉ replaceAllChar '.' '_' e2 :=
        not_mem_replaceAll (by decide) e2
      rw [← hout, splitAll_three h0 h1 h2]
      rfl

/-- C3 witness: at the concrete input `"1.2.3.4"` the trimmed input is
non-empty, no error is produced, and the output `"1.2.3_4"` has exactly
three dot-separated components. -/
theorem normalizeVersion_invariants_witness :
    (splitAll '.' "1.2.3_4".data).length = 3 :=
  (normalizeVersion_invariants "1.2.3.4".data).2 "1.2.3_4".data rfl

theorem decReprAux_fuel : ∀ {f1 f2 n : Nat}, n < f1 → n < f2 →
    decReprAux f1 n = decReprAux f2 n := by
  intro f1
  induction f1 with
  | zero => intro f2 n h _; omega
  | succ f ih =>
    intro f2 n h1 h2
    cases f2 with
    | zero => omega
    | succ f2' =>
      by_cases h10 : n < 10
      · simp [decReprAux, h10]
      · have hd : n / 10 < n := Nat.div_lt_self (by omega) (by omega)
        simp only [decReprAux, if_neg h10]
        rw [@ih f2' (n / 10) (by omega) (by omega)]

theorem decRepr_eq (n : Nat) : decRepr n =
    if n < 10 then [decChar n]
    else decRepr (n / 10) ++ [decChar (n % 10)] := by
  by_cases h : n < 10
  · simp [decRepr, decReprAux, h]
  · have hd : n / 10 < n := Nat.div_lt_self (by omega) (by omega)
    rw [if_neg h]
    show decReprAux (n + 1) n = decReprAux (n / 10 + 1) (n / 10) ++ [decChar (n % 10)]
    rw [show decReprAux (n + 1) n =
      if n < 10 then [decChar n]
      else decReprAux n (n / 10) ++ [decChar (n % 10)] from rfl]
    rw [if_neg h, @decReprAux_fuel n (n / 10 + 1) (n / 10) (by omega) (by omega)]

theorem decChar_toNat {d : Nat} (h : d < 10) : (decChar d).toNat = 48 + d := by
  interval_cases d <;> decide

theorem isDigitChar_decChar {d : Nat} (h : d < 10) :
    isDigitChar (decChar d) = true := by
  interval_cases d <;> decide

theorem digitVal_decChar {d : Nat} (h : d < 10) : digitVal (decChar d) = d := by
  interval_cases d <;> decide

theorem decRepr_digits (n : Nat) : ∀ c ∈ decRepr n, isDigitChar c = true := by
  induction n using Nat.strong_induction_on with
  | _ n ih =>
    rw [decRepr_eq]
    by_cases h : n < 10
    · simp only [if_pos h]
      intro c hc
      rcases List.mem_singleton.mp hc with rfl
      exact isDigitChar_decChar h
    · simp only [if_neg h]
      intro c hc
      rcases List.mem_append.mp hc with h1 | h2
      · exact ih (n / 10) (Nat.div_lt_self (by omega) (by omega)) c h1
      · rcases List.mem_singleton.mp h2 with rfl
        exact isDigitChar_decChar (Nat.mod_lt n (by omega))

theorem decRepr_ne_nil (n : Nat) : decRepr n ≠ [] := by
  rw [decRepr_eq]
  by_cases h : n < 10 <;> simp [h]

theorem decRepr_foldl (n : Nat) : ∀ acc : Nat,
    (decRepr n).foldl (fun a c => a * 10 + digitVal c) acc =
      acc * 10 ^ (decRepr n).length + n := by
  induction n using Nat.strong_induction_on with
  | _ n ih =>
    intro acc
    by_cases h : n < 10
    · rw [decRepr_eq, if_pos h]
      simp only [List.foldl_cons, List.foldl_nil, List.length_cons,
        List.length_nil, zero_add, pow_one]
      rw [digitVal_decChar h]
    · have hd : n / 10 < n := Nat.div_lt_self (by omega) (by omega)
      have hm : n % 10 < 10 := Nat.mod_lt n (by omega)
      rw [decRepr_eq, if_neg h, List.foldl_append]
      simp only [List.foldl_cons, List.foldl_nil, List.length_append,
        List.length_cons, List.length_nil, zero_add]
      rw [ih (n / 10) hd acc, digitVal_decChar hm, pow_succ, ← mul_assoc]
      generalize acc * 10 ^ (decRepr (n / 10)).length = A
      omega

theorem parseDec_decRepr (n : Nat) : parseDec (decRepr n) = some n := by
  have hall : (decRepr n).all isDigitChar = true :=
    List.all_eq_true.mpr (decRepr_digits n)
  simp only [parseDec, if_neg (decRepr_ne_nil n), hall, if_true]
  rw [decRepr_foldl n 0]
  simp

theorem foldl_append_flatMap (g : Nat → List Char) :
    ∀ (l : List Nat) (acc : List Char),
      l.foldl (fun sb v => sb ++ g v) acc = acc ++ l.flatMap g := by
  intro l
  induction l with
  | nil => intro acc; simp
  | cons b bs ih =>
    intro acc
    simp only [List.foldl_cons, List.flatMap_cons, ih, List.append_assoc]

theorem byteize_flatMap (l : List Nat) :
    byteize l = l.flatMap (fun b => decRepr b ++ [',']) := by
  simpa using foldl_append_flatMap _ l []

theorem comma_not_mem_decRepr (n : Nat) : ',' ∉ decRepr n := fun hm =>
  absurd (decRepr_digits n ',' hm) (by decide)

theorem splitAll_byteize (l : List Nat) :
    splitAll ',' (byteize l) = l.map decRepr ++ [[]] := by
  rw [byteize_flatMap]
  induction l with
  | nil => rfl
  | cons b bs ih =>
    simp only [List.flatMap_cons, List.map_cons, List.append_assoc,
      List.singleton_append, List.nil_append]
    rw [splitAll_append _ (comma_not_mem_decRepr b), ih]
    simp

theorem parseAll_decRepr (l : List Nat) : parseAll (l.map decRepr) = some l := by
  induction l with
  | nil => rfl
  | cons b bs ih => simp [parseAll, parseDec_decRepr, ih]

/-- C4: `byteize` renders each byte as its unsigned decimal value
followed by a comma and nothing else, and decoding the emitted
comma-separated decimal sequence reproduces the original byte sequence
exactly. -/
theorem byteize_roundtrip (l : List Nat) (h : ∀ b ∈ l, b < 256) :
    byteize l = l.flatMap (fun b => decRepr b ++ [',']) ∧
    decodeBytes (byteize l) = some l := by
  refine ⟨byteize_flatMap l, ?_⟩
  unfold decodeBytes
  rw [splitAll_byteize, List.dropLast_concat, parseAll_decRepr]

/-- C4 witness: the concrete byte sequence `[0, 255, 17]` is rendered as
`"0,255,17,"` and decodes back to itself. -/
theorem byteize_roundtrip_witness :
    decodeBytes (byteize [0, 255, 17]) = some [0, 255, 17] :=
  (byteize_roundtrip [0, 255, 17] (by decide)).2

theorem htmlEscapeChar_of_digit {c : Char} (h : isDigitChar c = true) :
    htmlEscapeChar c = [c] := by
  have h' : 48 ≤ c.toNat ∧ c.toNat ≤ 57 := by
    simpa [isDigitChar, Bool.and_eq_true, decide_eq_true_eq] using h
  unfold htmlEscapeChar
  rw [if_neg (by omega), if_neg (by omega), if_neg (by omega),
    if_neg (by omega), if_neg (by omega), if_neg (by omega)]

theorem htmlEscape_eq_self :
    ∀ s : List Char, (∀ c ∈ s, htmlEscapeChar c = [c]) → htmlEscape s = s
  | [], _ => rfl
  | c :: cs, h => by
    have h1 := h c (List.mem_cons_self c cs)
    have h2 := htmlEscape_eq_self cs fun x hx => h x (List.mem_cons_of_mem c hx)
    simp only [htmlEscape] at h2 ⊢
    rw [List.flatMap_cons, h1, h2, List.singleton_append]

theorem mem_byteize_digit_or_comma {c : Char} {l : List Nat}
    (h : c ∈ byteize l) : isDigitChar c = true ∨ c = ',' := by
  rw [byteize_flatMap] at h
  rcases List.mem_flatMap.mp h with ⟨b, _, hc⟩
  rcases List.mem_append.mp hc with h1 | h2
  · exact Or.inl (decRepr_digits b c h1)
  · exact Or.inr (List.mem_singleton.mp h2)

/-- C10: executing the `html/template` template on any byte sequence
produces exactly the plain textual substitution of the output of `byteize`
into the fixed template text — the HTML auto-escaping never alters the
rendered output, because `byteize` emits only decimal digits and
commas, which are escape-invariant. -/
theorem executeTemplate_plain (bin : List Nat) :
    executeTemplate bin = plainSubstitution bin := by
  unfold executeTemplate plainSubstitution
  have hesc : htmlEscape (byteize bin) = byteize bin := by
    apply htmlEscape_eq_self
    intro c hc
    rcases mem_byteize_digit_or_comma hc with hd | rfl
    · exact htmlEscapeChar_of_digit hd
    · rfl
  rw [hesc]

/-- C6: the rendering-and-formatting step is deterministic — for any
formatter function and any two runs on the same architecture key and the
same binary byte sequence, the produced output text is byte-identical. -/
theorem renderAndFormat_deterministic (fmtSrc : List Char → List Char)
    (arch1 arch2 : String) (bin1 bin2 : List Nat)
    (harch : arch1 = arch2) (hbin : bin1 = bin2) :
    renderAndFormat fmtSrc arch1 bin1 = renderAndFormat fmtSrc arch2 bin2 := by
  subst harch
  subst hbin
  rfl

/-- C6 witness: two runs on the architecture key `"amd64"` and the byte
sequence `[1, 2]` produce identical output. -/
theorem renderAndFormat_deterministic_witness :
    renderAndFormat id "amd64" [1, 2] = renderAndFormat id "amd64" [1, 2] :=
  renderAndFormat_deterministic id "amd64" "amd64" [1, 2] [1, 2] rfl rfl

theorem unzipLoop_all_ok (files : List ZipEntry) :
    ∀ (cfg : List (String × String)) (bmap : List (String × List Nat)),
      (∀ kv ∈ cfg, entryOk files kv.2 = true) →
      unzipLoop files cfg bmap =
        .ok (bmap ++ cfg.map fun kv => (kv.1, entryData files kv.2)) := by
  intro cfg
  induction cfg with
  | nil => intro bmap _; simp [unzipLoop]
  | cons kv rest ih =>
    intro bmap h
    obtain ⟨k, v⟩ := kv
    have hk := h (k, v) (List.mem_cons_self _ _)
    cases hl : lookupEntry files (wintunPath v) with
    | none => simp [entryOk, hl] at hk
    | some e =>
      simp only [entryOk, hl, Bool.and_eq_true, Bool.not_eq_true'] at hk
      obtain ⟨hopen, hread⟩ := hk
      have hdata : entryData files v = e.data := by
        simp [entryData, hl]
      simp only [unzipLoop, hl, hopen, hread, Bool.false_eq_true, if_false]
      rw [ih (bmap ++ [(k, e.data)]) fun kv hm => h kv (List.mem_cons_of_mem _ hm)]
      simp [hdata, List.append_assoc]

/-- C5 (amended): for every archive that, for each of the four configured
architecture keys, contains an entry at `wintun/bin/<name>/wintun.dll`
that opens and reads successfully, `unzipBinaries` succeeds and returns a
map whose key list is exactly the configured keys, the blob of each key
equal to the stored content of that entry; each blob is non-empty
whenever the content of the corresponding entry is non-empty. -/
theorem unzipBinaries_wellformed (a : ZipArchive)
    (hv : a.valid = true)
    (hok : ∀ kv ∈ goarchToWintunArch, entryOk a.files kv.2 = true) :
    unzipBinaries a =
      .ok (goarchToWintunArch.map fun kv => (kv.1, entryData a.files kv.2)) ∧
    (goarchToWintunArch.map fun kv => (kv.1, entryData a.files kv.2)).map
      Prod.fst = ["amd64", "arm", "arm64", "386"] ∧
    ((∀ kv ∈ goarchToWintunArch, entryData a.files kv.2 ≠ []) →
      ∀ p ∈ goarchToWintunArch.map fun kv => (kv.1, entryData a.files kv.2),
        p.2 ≠ []) := by
  refine ⟨?_, ?_, ?_⟩
  · unfold unzipBinaries
    rw [if_pos hv, unzipLoop_all_ok a.files goarchToWintunArch [] hok]
    simp
  · simp [goarchToWintunArch]
  · intro h p hp
    rcases List.mem_map.mp hp with ⟨kv, hkv, rfl⟩
    exact h kv hkv

/-- A well-formed archive carrying one non-empty binary per configured
architecture. -/
def wfArchive : ZipArchive :=
  ⟨true,
   [⟨"wintun/bin/amd64/wintun.dll", false, false, [1]⟩,
    ⟨"wintun/bin/arm/wintun.dll", false, false, [2]⟩,
    ⟨"wintun/bin/arm64/wintun.dll", false, false, [3]⟩,
    ⟨"wintun/bin/x86/wintun.dll", false, false, [4]⟩]⟩

/-- C5 witness: on a concrete archive with all four entries present and
readable, extraction succeeds with one blob per configured key. -/
theorem unzipBinaries_wellformed_witness :
    unzipBinaries wfArchive =
      .ok [("amd64", [1]), ("arm", [2]), ("arm64", [3]), ("386", [4])] := by
  have h := unzipBinaries_wellformed wfArchive rfl (by decide)
  rw [h.1]
  rfl

/-- A well-formed archive in which every required entry is present and
readable, but the `x86` binary is empty. -/
def cexArchive : ZipArchive :=
  ⟨true,
   [⟨"wintun/bin/amd64/wintun.dll", false, false, [7]⟩,
    ⟨"wintun/bin/arm/wintun.dll", false, false, [7]⟩,
    ⟨"wintun/bin/arm64/wintun.dll", false, false, [7]⟩,
    ⟨"wintun/bin/x86/wintun.dll", false, false, []⟩]⟩

/-- C5 counterexample: an archive containing an entry at
`wintun/bin/<name>/wintun.dll` for all four configured keys on which
`unzipBinaries` succeeds, yet the blob for `"386"` is empty — the
conclusion of the claim that each blob is non-empty fails. -/
theorem unzipBinaries_empty_blob :
    (goarchToWintunArch.all fun kv =>
      (lookupEntry cexArchive.files (wintunPath kv.2)).isSome) = true ∧
    unzipBinaries cexArchive =
      .ok [("amd64", [7]), ("arm", [7]), ("arm64", [7]), ("386", [])] ∧
    ([("amd64", [7]), ("arm", [7]), ("arm64", [7]),
      ("386", ([] : List Nat))].all fun p => !p.2.isEmpty) = false :=
  ⟨rfl, rfl, rfl⟩

/-- An archive whose only defect is that the entry
`wintun/bin/x86/wintun.dll` is missing. -/
def missingArchArchive : ZipArchive :=
  ⟨true,
   [⟨"wintun/bin/amd64/wintun.dll", false, false, [9]⟩,
    ⟨"wintun/bin/arm/wintun.dll", false, false, [9]⟩,
    ⟨"wintun/bin/arm64/wintun.dll", false, false, [9]⟩]⟩

/-- C1 (code bug): on an archive missing the entry for one configured
architecture (`386`, upstream name `x86`) while every other entry is
present and readable, `unzipBinaries` does not return a descriptive
error naming the key: the map lookup yields a nil `*zip.File`,
`f.Open()` dereferences it, and the program panics — modelled as
`GoResult.crash`. -/
theorem unzipBinaries_missing_entry_crashes :
    lookupEntry missingArchArchive.files (wintunPath "x86") = none ∧
    unzipBinaries missingArchArchive = GoResult.crash :=
  ⟨rfl, rfl⟩

theorem gitSeq_getD_zero (ver : String) :
    (gitSeq ver).getD 0 [] = ["git", "add", "."] := rfl

theorem gitSeq_getD_one (ver : String) :
    (gitSeq ver).getD 1 [] =
      ["git", "commit", "-m", "updated to Wintun version " ++ ver] := rfl

theorem gitSeq_getD_two (ver : String) :
    (gitSeq ver).getD 2 [] =
      ["git", "tag", "-f", "-a", "v" ++ ver, "-m",
       "Wintun version " ++ ver] := rfl

theorem gitSeq_getD_three (ver : String) :
    (gitSeq ver).getD 3 [] = ["git", "push", "--follow-tags"] := rfl

theorem gitSeq_getD_four (ver : String) :
    (gitSeq ver).getD 4 [] = ["git", "push", "origin", "v" ++ ver] := rfl

/-- C7: `pushToGit` issues exactly the sequence stage-all, commit with a
message embedding the version, force-create annotated tag `v<ver>`, push
with tags, push the tag by name, in that order; and when the first `k`
commands succeed and command `k` fails, it stops after command `k` with
a wrapped error naming that git operation. -/
theorem pushToGit_sequence (exec : List String → Except String Unit)
    (ver : String) :
    ((∀ c ∈ gitSeq ver, exec c = .ok ()) →
      pushToGit exec ver = (gitSeq ver, none)) ∧
    (∀ k e, k < 5 →
      (∀ j, j < k → exec ((gitSeq ver).getD j []) = .ok ()) →
      exec ((gitSeq ver).getD k []) = .error e →
      pushToGit exec ver =
        ((gitSeq ver).take (k + 1), some (gitWrap k ++ e))) := by
  constructor
  · intro h
    have h0 : exec ["git", "add", "."] = .ok () := h _ (by simp [gitSeq])
    have h1 : exec ["git", "commit", "-m", "updated to Wintun version " ++ ver]
        = .ok () := h _ (by simp [gitSeq])
    have h2 : exec ["git", "tag", "-f", "-a", "v" ++ ver, "-m",
        "Wintun version " ++ ver] = .ok () := h _ (by simp [gitSeq])
    have h3 : exec ["git", "push", "--follow-tags"] = .ok () :=
      h _ (by simp [gitSeq])
    have h4 : exec ["git", "push", "origin", "v" ++ ver] = .ok () :=
      h _ (by simp [gitSeq])
    simp only [pushToGit, h0, h1, h2, h3, h4]
    rfl
  · intro k e hk hprev hfail
    interval_cases k
    · rw [gitSeq_getD_zero] at hfail
      simp only [pushToGit, hfail]
      rfl
    · have p0 := hprev 0 (by omega)
      rw [gitSeq_getD_zero] at p0
      rw [gitSeq_getD_one] at hfail
      simp only [pushToGit, p0, hfail]
      rfl
    · have p0 := hprev 0 (by omega)
      have p1 := hprev 1 (by omega)
      rw [gitSeq_getD_zero] at p0
      rw [gitSeq_getD_one] at p1
      rw [gitSeq_getD_two] at hfail
      simp only [pushToGit, p0, p1, hfail]
      rfl
    · have p0 := hprev 0 (by omega)
      have p1 := hprev 1 (by omega)
      have p2 := hprev 2 (by omega)
      rw [gitSeq_getD_zero] at p0
      rw [gitSeq_getD_one] at p1
      rw [gitSeq_getD_two] at p2
      rw [gitSeq_getD_three] at hfail
      simp only [pushToGit, p0, p1, p2, hfail]
      rfl
    · have p0 := hprev 0 (by omega)
      have p1 := hprev 1 (by omega)
      have p2 := hprev 2 (by omega)
      have p3 := hprev 3 (by omega)
      rw [gitSeq_getD_zero] at p0
      rw [gitSeq_getD_one] at p1
      rw [gitSeq_getD_two] at p2
      rw [gitSeq_getD_three] at p3
      rw [gitSeq_getD_four] at hfail
      simp only [pushToGit, p0, p1, p2, p3, hfail]
      rfl

/-- An execution environment in which only `git push --follow-tags`
fails. -/
def execFailPush (c : List String) : Except String Unit :=
  if c = ["git", "push", "--follow-tags"] then .error "remote unreachable"
  else .ok ()

/-- C7 witness: with the first three commands succeeding and the fourth
(`git push --follow-tags`) failing, `pushToGit` attempts exactly the
first four commands and reports the wrapped push error. -/
theorem pushToGit_sequence_witness :
    pushToGit execFailPush "0.14.1" =
      ((gitSeq "0.14.1").take 4, some (gitWrap 3 ++ "remote unreachable")) := by
  refine (pushToGit_sequence execFailPush "0.14.1").2 3 "remote unreachable"
    (by omega) ?_ ?_
  · intro j hj
    interval_cases j <;> rfl
  · rfl

/-- C8: `hasUncommittedChanges` returns `true` exactly when the
whitespace-trimmed output of the porcelain status inspection is
non-empty (when the inspection succeeds), and returns a wrapped error
when the status command fails. -/
theorem hasUncommittedChanges_spec
    (exec : List String → Except String String) :
    (∀ out, exec gitStatusCmd = .ok out →
      hasUncommittedChanges exec = .ok (decide (trimSpace out.data ≠ []))) ∧
    (∀ e, exec gitStatusCmd = .error e →
      hasUncommittedChanges exec =
        .error ("unable to check git status: " ++ e)) := by
  constructor
  · intro out hout
    simp only [hasUncommittedChanges, hout]
    congr 1
    exact decide_eq_decide.mpr List.length_pos
  · intro e he
    simp only [hasUncommittedChanges, he]

/-- An execution environment in which the porcelain status command
reports one modified file. -/
def statusExecDirty (c : List String) : Except String String :=
  if c = gitStatusCmd then .ok " M lib_windows_amd64.go\n" else .error "unused"

/-- C8 witness: a status inspection whose output trims to a non-empty
string makes `hasUncommittedChanges` return `true`. -/
theorem hasUncommittedChanges_spec_witness :
    hasUncommittedChanges statusExecDirty = .ok true := by
  have h := (hasUncommittedChanges_spec statusExecDirty).1
    " M lib_windows_amd64.go\n" rfl
  rw [h]
  rfl

/-- C9: `downloadUrl` is a pure, deterministic string construction:
it returns exactly the fixed template with the raw version substituted,
and the URL determines the version (only the version segment varies). -/
theorem downloadUrl_spec (v : String) :
    downloadUrl v = "https://www.wintun.net/builds/wintun-" ++ v ++ ".zip" ∧
    (∀ w, downloadUrl v = downloadUrl w → v = w) := by
  refine ⟨rfl, ?_⟩
  intro w h
  unfold downloadUrl at h
  have h' := congrArg String.data h
  simp only [String.data_append] at h'
  rw [List.append_assoc, List.append_assoc] at h'
  have h'' := List.append_cancel_right (List.append_cancel_left h')
  exact String.ext h''

/-- C9 witness: the URL for raw version `"0.14.1"` is the expected
literal. -/
theorem downloadUrl_spec_witness :
    downloadUrl "0.14.1" = "https://www.wintun.net/builds/wintun-0.14.1.zip" :=
  ((downloadUrl_spec "0.14.1").1).trans (by decide)
